import Mathlib

/-!
# Verification of the phoenix-presence-immutable reconciliation engine

Shallow embedding of the presence reconciliation library.  The repository
ships two variants of the engine:

* `src/index.js` — the per-event variant (`syncDiff` with optional
  `onJoin` / `onLeave` callbacks fired inline during application);
* the `onChanged` variant (with the combined `sync` entry point and the
  `isPresenceFormat` payload classifier).

Both share the same state-transformation core, which we embed once and
instrument with explicit event traces for the callback contracts.

## Typed layer

JavaScript `Immutable.Map` values are modelled by association lists with
map semantics (`getK` returns the first binding, `setK` replaces in place
or appends, `delK` removes all bindings of the key).  A `Meta` is a map
with the distinguished `phx_ref` field; its remaining fields are kept in
`data`.  A `PresenceRecord` is a map with the distinguished `metas` field;
its remaining top-level fields are kept in `extra`.

Object identity (JavaScript reference equality, which the structural
sharing claims are about) is modelled by an opaque `tag : Nat` component
on metas and records.  The code never constructs or reads a tag: it can
only copy it, so whenever the input tags are chosen pairwise distinct,
equality of tagged values coincides with reference identity.  The tag of
an `Immutable.Map.set` result is kept (the set result is a fresh object in
JavaScript, but no theorem below asserts distinctness of derived records,
only preservation of carried-through ones).
-/

structure Meta where
  phx_ref : String
  data : List (String × String)
  tag : Nat
  deriving Repr, DecidableEq

structure PresenceRecord where
  metas : List Meta
  extra : List (String × String)
  tag : Nat
  deriving Repr, DecidableEq

abbrev State := List (String × PresenceRecord)

/-- `Immutable.Map.get`: the value bound to `k`, `undefined` modelled as `none`. -/
def getK : State → String → Option PresenceRecord
  | [], _ => none
  | (k', v) :: t, k => if k' = k then some v else getK t k

/-- `Immutable.Map.set`: replace the binding in place, or append a new one. -/
def setK : State → String → PresenceRecord → State
  | [], k, v => [(k, v)]
  | (k', v') :: t, k, v => if k' = k then (k, v) :: t else (k', v') :: setK t k v

/-- `Immutable.Map.delete`. -/
def delK : State → String → State
  | [], _ => []
  | (k', v') :: t, k => if k' = k then delK t k else (k', v') :: delK t k

/-!
## The diff-application core

`syncDiff`'s state transformation, shared verbatim between both variants
of the library (`src/index.js` and the `onChanged` variant): a fold of the
join step over `joins` followed by a fold of the leave step over `leaves`.
Deltas are modelled like states: association lists delivered by
`Immutable.fromJS`, whose `reduce` visits the entries in list order.
-/

structure Delta where
  joins : List (String × PresenceRecord)
  leaves : List (String × PresenceRecord)
  deriving Repr, DecidableEq

/-- One step of `immutableJoins.reduce`: merge the joined record with the
current presence.  `newPresence.set('metas', current.metas.concat(new.metas))`
keeps the *join* record's other top-level fields, not the current record's. -/
def joinStep (st : State) (kv : String × PresenceRecord) : State :=
  match getK st kv.1 with
  | some currentPresence =>
      setK st kv.1 { kv.2 with metas := currentPresence.metas ++ kv.2.metas }
  | none => setK st kv.1 kv.2

/-- One step of `immutableLeaves.reduce`: drop every meta whose `phx_ref`
occurs among the refs of the leave record's metas; delete the key when no
metas remain. -/
def leaveStep (st : State) (kv : String × PresenceRecord) : State :=
  match getK st kv.1 with
  | none => st
  | some currentPresence =>
      let refsToRemove := kv.2.metas.map (fun m => m.phx_ref)
      let currentMetas :=
        currentPresence.metas.filter (fun m => !(refsToRemove.contains m.phx_ref))
      if currentMetas.isEmpty then delK st kv.1
      else setK st kv.1 { currentPresence with metas := currentMetas }

/-- `syncDiff` without callbacks: the join phase, then the leave phase. -/
def syncDiff (state : State) (d : Delta) : State :=
  d.leaves.foldl leaveStep (d.joins.foldl joinStep state)

/-!
### Instrumented per-event variant (`src/index.js`)

The `onJoin`/`onLeave` callbacks of the per-event variant are modelled by
an explicit event trace recorded at exactly the program points where
`src/index.js` invokes them (inside the join reduce, before `state.set`;
inside the leave reduce, after computing the filtered record, with no
event at all when the key is absent).
-/

inductive PEvent where
  | join : String → Option PresenceRecord → PresenceRecord → PEvent
  | leave : String → PresenceRecord → PresenceRecord → PEvent
  deriving Repr, DecidableEq

def joinStepT (acc : State × List PEvent) (kv : String × PresenceRecord) :
    State × List PEvent :=
  let currentPresence := getK acc.1 kv.1
  let newPresence :=
    match currentPresence with
    | some c => { kv.2 with metas := c.metas ++ kv.2.metas }
    | none => kv.2
  (setK acc.1 kv.1 newPresence, acc.2 ++ [PEvent.join kv.1 currentPresence newPresence])

def leaveStepT (acc : State × List PEvent) (kv : String × PresenceRecord) :
    State × List PEvent :=
  match getK acc.1 kv.1 with
  | none => acc
  | some currentPresence =>
      let refsToRemove := kv.2.metas.map (fun m => m.phx_ref)
      let currentMetas :=
        currentPresence.metas.filter (fun m => !(refsToRemove.contains m.phx_ref))
      let currentNewPresence := { currentPresence with metas := currentMetas }
      let st := if currentMetas.isEmpty then delK acc.1 kv.1
                else setK acc.1 kv.1 currentNewPresence
      (st, acc.2 ++ [PEvent.leave kv.1 currentNewPresence kv.2])

/-- The per-event `syncDiff` of `src/index.js`: same state result, plus the
inline `onJoin`/`onLeave` call trace. -/
def syncDiffJL (state : State) (d : Delta) : State × List PEvent :=
  d.leaves.foldl leaveStepT (d.joins.foldl joinStepT (state, []))

/-!
### The `onChanged` variant

`Immutable.is(a.get('metas'), b.get('metas'))` compares the metas
sequences by deep value equality: same length, and pointwise equality of
the `phx_ref` field and the remaining fields (`data`); the identity `tag`
is not a field of the JavaScript object, so it does not participate.
-/

def Meta.veq (a b : Meta) : Bool :=
  a.phx_ref == b.phx_ref && a.data == b.data

def metasIs (xs ys : List Meta) : Bool :=
  xs.length == ys.length && (List.zip xs ys).all (fun p => p.1.veq p.2)

/-- `changedKeys = joins.keySeq().concat(leaves.keySeq()).toSet()`. -/
def changedKeys (d : Delta) : List String :=
  (d.joins.map Prod.fst ++ d.leaves.map Prod.fst).dedup

/-- One step of the post-apply reconciliation pass: call `onChanged` and
adopt its return value only when a current record exists and the returned
record's metas are value-equal to it. -/
def notifyStep (originalState : State)
    (onChanged : String → Option PresenceRecord → Option PresenceRecord → Option PresenceRecord)
    (st : State) (key : String) : State :=
  match onChanged key (getK st key) (getK originalState key), getK st key with
  | some newPresence, some cp =>
      if metasIs newPresence.metas cp.metas then setK st key newPresence else st
  | _, _ => st

/-- The `onChanged` variant of `syncDiff`, optional callback included:
with no callback the post-join/leave state is returned directly. -/
def syncDiffN (originalState : State) (d : Delta)
    (onChanged : Option (String → Option PresenceRecord → Option PresenceRecord → Option PresenceRecord)) :
    State :=
  match onChanged with
  | none => syncDiff originalState d
  | some cb => (changedKeys d).foldl (notifyStep originalState cb) (syncDiff originalState d)

/-- Instrumented reconciliation pass: also records the arguments of every
`onChanged` invocation, in call order. -/
def notifyStepT (originalState : State)
    (onChanged : String → Option PresenceRecord → Option PresenceRecord → Option PresenceRecord)
    (acc : State × List (String × Option PresenceRecord × Option PresenceRecord))
    (key : String) :
    State × List (String × Option PresenceRecord × Option PresenceRecord) :=
  (notifyStep originalState onChanged acc.1 key,
   acc.2 ++ [(key, getK acc.1 key, getK originalState key)])

def syncDiffTraced (originalState : State) (d : Delta)
    (onChanged : String → Option PresenceRecord → Option PresenceRecord → Option PresenceRecord) :
    State × List (String × Option PresenceRecord × Option PresenceRecord) :=
  (changedKeys d).foldl (notifyStepT originalState onChanged) (syncDiff originalState d, [])

/-!
## Step lemmas for the three reduces
-/

/-- Record produced by a join for key `k`: merged with the current record
when one exists, the join record verbatim otherwise. -/
def joinRecord (cur : Option PresenceRecord) (j : PresenceRecord) : PresenceRecord :=
  match cur with
  | some c => { j with metas := c.metas ++ j.metas }
  | none => j

/-- Record produced by a leave from current record `c`: the metas whose
`phx_ref` is among the leave record's refs are removed. -/
def leaveRecord (c : PresenceRecord) (l : PresenceRecord) : PresenceRecord :=
  { c with metas :=
      c.metas.filter (fun m => !((l.metas.map (fun x => x.phx_ref)).contains m.phx_ref)) }

/-- Binding produced by a leave for key `k`: `none` once no metas remain. -/
def leaveBinding (cur : Option PresenceRecord) (l : PresenceRecord) :
    Option PresenceRecord :=
  match cur with
  | none => none
  | some c =>
      if (leaveRecord c l).metas.isEmpty then none else some (leaveRecord c l)

/-- Binding of key `a` after the `onChanged` reconciliation step, as a
function of its binding before the step. -/
def notifyBinding (S : State)
    (cb : String → Option PresenceRecord → Option PresenceRecord → Option PresenceRecord)
    (a : String) (cur : Option PresenceRecord) : Option PresenceRecord :=
  match cb a cur (getK S a), cur with
  | some np, some cp => if metasIs np.metas cp.metas then some np else some cp
  | _, _ => cur

/-!
## C1 — `syncDiff` against the spec's reference definition

The reference definition below is written from the spec's own wording,
per key: first the join phase ("if `state` already has `k`, the new
record's metas = current metas concatenated with the join's metas,
existing first; otherwise the join's record becomes the entry verbatim"),
then over the join-phase result the leave phase ("remove every meta whose
ref is in the leave payload's ref set; if the remaining metas sequence is
empty, delete the key entirely; otherwise set `state[k]` to the record
with the filtered metas"; an absent key is a no-op).
-/

/-- The reference join phase, per key, following the spec's words. -/
def referenceJoinAt (S : State) (d : Delta) (k : String) : Option PresenceRecord :=
  match getK d.joins k, getK S k with
  | some j, some cur => some { j with metas := cur.metas ++ j.metas }
  | some j, none => some j
  | none, v => v

/-- The reference result of `syncDiff` at key `k`, following the spec's
words: the leave phase applied over the join-phase result. -/
def referenceAt (S : State) (d : Delta) (k : String) : Option PresenceRecord :=
  match getK d.leaves k, referenceJoinAt S d k with
  | some l, some cur =>
      let kept := cur.metas.filter
        (fun m => decide (m.phx_ref ∉ l.metas.map (fun x => x.phx_ref)))
      if kept = [] then none else some { cur with metas := kept }
  | _, v => v

/-!
## C5 — the per-event callback contract of `src/index.js`

The claim as stated requires an `onLeave` invocation for *every* key of
`leaves`; the code skips keys that are absent from the post-join state
(`if (!currentPresence) { return state }` comes before the `onLeave`
call), so a leave for an absent key fires nothing.
-/

def c5Delta : Delta := ⟨[], [("u1", ⟨[⟨"1", [], 0⟩], [], 0⟩)]⟩

/-!
## C8 — the no-empty-metas invariant

The join phase inserts a vacant-key join record *verbatim*, so a join
delta carrying a record with zero metas creates a state entry with an
empty metas sequence: the invariant as claimed fails for arbitrary
payloads.  It is preserved whenever every join record carries at least
one meta (the leave phase always deletes a key rather than keep an empty
record, and the `onChanged` replacement requires value-equal metas, which
preserves nonemptiness).
-/

/-- The spec's State invariant: no entry's record has an empty metas
sequence. -/
def StateWF (S : State) : Prop := ∀ p ∈ S, p.2.metas ≠ []

instance (S : State) : Decidable (StateWF S) := by
  unfold StateWF
  infer_instance

/-!
## C9 — extra top-level record fields under join/leave processing

In a join collision the code keeps the *join* record's top-level fields
(`newPresence.set('metas', ...)`), so the pre-existing record's extra
fields are dropped: the claim fails for the join phase.  The leave phase
does preserve them (`currentPresence.set('metas', ...)` is based on the
state's record).
-/

def c9State : State := [("u1", ⟨[⟨"1", [], 1⟩], [("x", "1")], 61⟩)]

def c9Delta : Delta := ⟨[("u1", ⟨[⟨"1.2", [], 2⟩], [], 62⟩)], []⟩

/-!
## Raw payload layer

The combined entry point `sync`, its classifier `isPresenceFormat`, and
the malformed-payload behaviour operate on raw, untyped JavaScript data.
`JVal` models raw JSON-like values; `Immutable.fromJS` preserves this
structure, so a `JVal` stands for both the raw payload and its immutable
coercion.  Operations that throw a `TypeError` in JavaScript (calling a
collection method on a primitive or on `undefined`) are modelled in the
`Except Unit` monad.

Modelling notes, each marked at its definition: map-valued metas and
array-shaped deltas hit exotic Immutable semantics that no payload in the
claims exercises; those paths are modelled as errors.
-/

inductive JVal where
  | str : String → JVal
  | num : Int → JVal
  | bool : Bool → JVal
  | null : JVal
  | arr : List JVal → JVal
  | obj : List (String × JVal) → JVal

abbrev RawState := List (String × JVal)

/-- JavaScript truthiness of a raw value. -/
def truthy : JVal → Bool
  | .str s => s ≠ ""
  | .num n => n ≠ 0
  | .bool b => b
  | .null => false
  | .arr _ => true
  | .obj _ => true

def lookupJ : List (String × JVal) → String → Option JVal
  | [], _ => none
  | (k', v) :: t, k => if k' = k then some v else lookupJ t k

/-- Raw property access `v.k`: `undefined` (`none`) unless `v` is an
object with the property. -/
def jfield (v : JVal) (k : String) : Option JVal :=
  match v with
  | .obj es => lookupJ es k
  | _ => none

def getR : RawState → String → Option JVal
  | [], _ => none
  | (k', v) :: t, k => if k' = k then some v else getR t k

def setR : RawState → String → JVal → RawState
  | [], k, v => [(k, v)]
  | (k', v') :: t, k, v => if k' = k then (k, v) :: t else (k', v') :: setR t k v

def delR : RawState → String → RawState
  | [], _ => []
  | (k', v') :: t, k => if k' = k then delR t k else (k', v') :: delR t k

mutual

/-- `Immutable.is` on raw values: deep value equality.  (For object
values the model compares entries in order; the claims never compare
object-valued refs, whose Immutable comparison is order-insensitive.) -/
def jeq : JVal → JVal → Bool
  | .str a, .str b => a == b
  | .num a, .num b => a == b
  | .bool a, .bool b => a == b
  | .null, .null => true
  | .arr xs, .arr ys => jeqList xs ys
  | .obj xs, .obj ys => jeqObj xs ys
  | _, _ => false

def jeqList : List JVal → List JVal → Bool
  | [], [] => true
  | x :: xs, y :: ys => jeq x y && jeqList xs ys
  | _, _ => false

def jeqObj : List (String × JVal) → List (String × JVal) → Bool
  | [], [] => true
  | (k1, v1) :: xs, (k2, v2) :: ys => k1 == k2 && jeq v1 v2 && jeqObj xs ys
  | _, _ => false

end

/-- `Immutable.is` on possibly-undefined values: `is(undefined, undefined)`
holds. -/
def oeq : Option JVal → Option JVal → Bool
  | none, none => true
  | some a, some b => jeq a b
  | _, _ => false

/-- `v.get(k)`: property lookup on a collection, `undefined` when absent
(a string key is never a valid list index); a `TypeError` on a
primitive. -/
def jGet : JVal → String → Except Unit (Option JVal)
  | .obj es, k => .ok (lookupJ es k)
  | .arr _, _ => .ok none
  | _, _ => .error ()

/-- `v.has(k)` with the same conventions. -/
def jHas : JVal → String → Except Unit Bool
  | .obj es, k => .ok (es.any (fun p => p.1 == k))
  | .arr _, _ => .ok false
  | _, _ => .error ()

/-- `v.get('metas')` followed by a list-method call on the result: throws
when `v` is a primitive or the metas property is missing (`undefined` has
no methods).  A non-list metas value is likewise modelled as an error (no
claim exercises map-valued metas in the applier). -/
def jMetasList (v : JVal) : Except Unit (List JVal) := do
  match ← jGet v "metas" with
  | some (.arr xs) => .ok xs
  | _ => .error ()

/-- `m.get('phx_ref')`, `undefined` allowed. -/
def jRefOf (m : JVal) : Except Unit (Option JVal) := jGet m "phx_ref"

/-- Short-circuiting `every` in the `Except` monad. -/
def allE (f : JVal → Except Unit Bool) : List JVal → Except Unit Bool
  | [] => .ok true
  | x :: xs => do
      if ← f x then allE f xs else .ok false

/-- The body of the classifier's inner check:
`presence.has('metas') && presence.get('metas').every(meta => meta.has('phx_ref'))`. -/
def presenceEntryOk (p : JVal) : Except Unit Bool := do
  if ← jHas p "metas" then
    match ← jGet p "metas" with
    | some (.arr xs) => allE (fun m => jHas m "phx_ref") xs
    | some (.obj es) => allE (fun m => jHas m "phx_ref") (es.map (fun e => e.2))
    | _ => .error ()
  else
    .ok false

/-- `isPresenceFormat`: every entry of the (coerced) collection passes
`presenceEntryOk`.  Calling `.every` on a primitive throws. -/
def isPresenceFormat (data : JVal) : Except Unit Bool :=
  match data with
  | .obj es => allE presenceEntryOk (es.map (fun e => e.2))
  | .arr xs => allE presenceEntryOk xs
  | _ => .error ()

/-!
## Raw `syncDiff`, `syncState` and the combined `sync` entry point

These embed the `onChanged` variant's functions over raw payloads (the
notifier pass plays no role in classification or in the malformed-payload
behaviour and is modelled at the typed layer).  A `reduce` over an
array-shaped delta would build numeric keys; no claim exercises that, and
it is modelled as an error.
-/

def jSetEntry : List (String × JVal) → JVal → List (String × JVal)
  | [], x => [("metas", x)]
  | (k', v') :: t, x => if k' = "metas" then ("metas", x) :: t else (k', v') :: jSetEntry t x

/-- `newPresence.set('metas', v)` on an object record. -/
def jSetMetas : JVal → JVal → JVal
  | .obj es, x => .obj (jSetEntry es x)
  | other, _ => other

/-- One step of the raw join reduce. -/
def joinStepRaw (st : RawState) (kv : String × JVal) : Except Unit RawState :=
  match getR st kv.1 with
  | none => .ok (setR st kv.1 kv.2)
  | some currentPresence => do
      let cm ← jMetasList currentPresence
      let nm ← jMetasList kv.2
      .ok (setR st kv.1 (jSetMetas kv.2 (.arr (cm ++ nm))))

/-- One step of the raw leave reduce: `refsToRemove` is computed first
(throwing if the leave record has no metas list), then the current metas
are filtered by `Immutable.is` comparison of the `phx_ref` values. -/
def leaveStepRaw (st : RawState) (kv : String × JVal) : Except Unit RawState :=
  match getR st kv.1 with
  | none => .ok st
  | some currentPresence => do
      let lm ← jMetasList kv.2
      let refsToRemove ← lm.mapM jRefOf
      let cm ← jMetasList currentPresence
      let keepFlags ← cm.mapM (fun p => do
        let r ← jRefOf p
        .ok (!(refsToRemove.any (fun q => oeq q r))))
      let currentMetas := (cm.zip keepFlags).filterMap
        (fun pb => if pb.2 then some pb.1 else none)
      let currentNewPresence := jSetMetas currentPresence (.arr currentMetas)
      .ok (if currentMetas.isEmpty then delR st kv.1
           else setR st kv.1 currentNewPresence)

/-- The raw `syncDiff` core: join reduce then leave reduce, over
object-shaped deltas. -/
def syncDiffRaw (originalState : RawState) (joins leaves : JVal) :
    Except Unit RawState :=
  match joins, leaves with
  | .obj js, .obj ls => do
      let stateAfterJoins ← js.foldlM joinStepRaw originalState
      ls.foldlM leaveStepRaw stateAfterJoins
  | _, _ => .error ()

/-- `extractMetas`: the metas of the second record whose refs are not
among the refs of the first record's metas, wrapped as a fresh
single-field record. -/
def extractMetas (comparedPresence newPresence : JVal) : Except Unit JVal := do
  let cms ← jMetasList comparedPresence
  let compRefs ← cms.mapM jRefOf
  let nms ← jMetasList newPresence
  let keepFlags ← nms.mapM (fun m => do
    let r ← jRefOf m
    .ok (!(compRefs.any (fun q => oeq q r))))
  let newMetas := (nms.zip keepFlags).filterMap
    (fun pb => if pb.2 then some pb.1 else none)
  .ok (.obj [("metas", .arr newMetas)])

/-- The raw `syncState`: partition the snapshot's keys against the old
state, reduce collisions with `extractMetas` both ways, and delegate the
computed delta to `syncDiffRaw`.  A primitive snapshot throws
(`groupBy` on a non-collection); an array snapshot would use numeric
keys, not exercised by any claim, likewise modelled as an error. -/
def syncState (oldState : RawState) (newState : JVal) : Except Unit RawState :=
  match newState with
  | .obj es => do
      let inCollisions := es.filter (fun p => oldState.any (fun q => q.1 == p.1))
      let allNewPresences := es.filter (fun p => !(oldState.any (fun q => q.1 == p.1)))
      let onlyInOld ← inCollisions.mapM (fun p =>
        match getR oldState p.1 with
        | some oldP => do
            let v ← extractMetas p.2 oldP
            .ok (p.1, v)
        | none => .error ())
      let onlyInNew ← inCollisions.mapM (fun p =>
        match getR oldState p.1 with
        | some oldP => do
            let v ← extractMetas oldP p.2
            .ok (p.1, v)
        | none => .error ())
      let notFoundPresences := oldState.filter (fun q => !(es.any (fun p => p.1 == q.1)))
      syncDiffRaw oldState (.obj (allNewPresences ++ onlyInNew))
        (.obj (notFoundPresences ++ onlyInOld))
  | _ => .error ()

/-- The combined entry point: the diff path is taken iff the payload has
truthy `joins` and `leaves` properties and both pass `isPresenceFormat`
(evaluated left to right, short-circuiting, errors propagating);
otherwise the payload is treated as a snapshot. -/
def sync (originalState : RawState) (newData : JVal) : Except Unit RawState :=
  match jfield newData "joins", jfield newData "leaves" with
  | some j, some l =>
      if truthy j && truthy l then do
        let b1 ← isPresenceFormat j
        if b1 then do
          let b2 ← isPresenceFormat l
          if b2 then syncDiffRaw originalState j l
          else syncState originalState newData
        else syncState originalState newData
      else syncState originalState newData
  | _, _ => syncState originalState newData

/-- The claim's concrete snapshot example, as a payload. -/
def c4Snapshot : JVal :=
  .obj [("leaves", .obj [("metas", .arr [.obj [("id", .num 1), ("ref", .str "1.leaves")]])]),
        ("joins", .obj [("metas", .arr [.obj [("id", .num 1), ("ref", .str "1.joins")]])])]

theorem getK_setK_self (s : State) (k : String) (v : PresenceRecord) :
    getK (setK s k v) k = some v := by
  induction s with
  | nil => simp [setK, getK]
  | cons hd t ih =>
    obtain ⟨k', v'⟩ := hd
    by_cases h : k' = k
    · simp [setK, getK, h]
    · simp [setK, getK, h, ih]

theorem getK_setK_other (s : State) (k k' : String) (v : PresenceRecord)
    (h : k' ≠ k) : getK (setK s k v) k' = getK s k' := by
  induction s with
  | nil => simp [setK, getK, Ne.symm h]
  | cons hd t ih =>
    obtain ⟨k₀, v₀⟩ := hd
    by_cases hk : k₀ = k
    · subst hk
      simp [setK, getK, Ne.symm h]
    · simp [setK, getK, hk, ih]

theorem getK_delK_self (s : State) (k : String) : getK (delK s k) k = none := by
  induction s with
  | nil => simp [delK, getK]
  | cons hd t ih =>
    obtain ⟨k', v'⟩ := hd
    by_cases h : k' = k
    · simp [delK, h, ih]
    · simp [delK, getK, h, ih]

theorem getK_delK_other (s : State) (k k' : String) (h : k' ≠ k) :
    getK (delK s k) k' = getK s k' := by
  induction s with
  | nil => simp [delK]
  | cons hd t ih =>
    obtain ⟨k₀, v₀⟩ := hd
    by_cases hk : k₀ = k
    · subst hk
      simp [delK, getK, Ne.symm h, ih]
    · simp [delK, getK, hk, ih]

theorem mem_setK (s : State) (k : String) (v : PresenceRecord) (p : String × PresenceRecord)
    (h : p ∈ setK s k v) : p = (k, v) ∨ p ∈ s := by
  induction s with
  | nil =>
    simp [setK] at h
    exact Or.inl h
  | cons hd t ih =>
    obtain ⟨k', v'⟩ := hd
    by_cases hk : k' = k
    · simp [setK, hk] at h
      rcases h with h | h
      · exact Or.inl h
      · exact Or.inr (List.mem_cons_of_mem _ h)
    · simp [setK, hk] at h
      rcases h with h | h
      · exact Or.inr (by simp [h])
      · rcases ih h with h' | h'
        · exact Or.inl h'
        · exact Or.inr (List.mem_cons_of_mem _ h')

theorem mem_delK (s : State) (k : String) (p : String × PresenceRecord)
    (h : p ∈ delK s k) : p ∈ s := by
  induction s with
  | nil => simp [delK] at h
  | cons hd t ih =>
    obtain ⟨k', v'⟩ := hd
    by_cases hk : k' = k
    · simp [delK, hk] at h
      exact List.mem_cons_of_mem _ (ih h)
    · simp [delK, hk] at h
      rcases h with h | h
      · simp [h]
      · exact List.mem_cons_of_mem _ (ih h)

/-!
## Generic lemmas about key-indexed folds

Every reduce in the library modifies at most the key of the entry being
processed.  The following lemmas characterise such folds: a key outside
the processed entries is untouched, and (for duplicate-free key lists,
which is what `Immutable.Map.reduce` delivers) the final binding of a
processed key is a function of its initial binding and its delta entry.
-/

theorem foldl_getK_frame (step : State → String × PresenceRecord → State)
    (hframe : ∀ st kv k, k ≠ kv.1 → getK (step st kv) k = getK st k)
    (L : List (String × PresenceRecord)) (st : State) (k : String)
    (hk : k ∉ L.map Prod.fst) :
    getK (L.foldl step st) k = getK st k := by
  induction L generalizing st with
  | nil => rfl
  | cons a t ih =>
    simp only [List.map_cons, List.mem_cons] at hk
    push_neg at hk
    rw [List.foldl_cons, ih (step st a) hk.2, hframe st a k hk.1]

theorem foldl_getK_char (step : State → String × PresenceRecord → State)
    (F : String × PresenceRecord → Option PresenceRecord → Option PresenceRecord)
    (hframe : ∀ st kv k, k ≠ kv.1 → getK (step st kv) k = getK st k)
    (hval : ∀ st kv, getK (step st kv) kv.1 = F kv (getK st kv.1))
    (L : List (String × PresenceRecord)) (st : State) (k : String)
    (hnd : (L.map Prod.fst).Nodup) :
    getK (L.foldl step st) k =
      match getK L k with
      | some v => F (k, v) (getK st k)
      | none => getK st k := by
  induction L generalizing st with
  | nil => rfl
  | cons a t ih =>
    obtain ⟨ak, av⟩ := a
    simp only [List.map_cons, List.nodup_cons] at hnd
    by_cases hak : ak = k
    · subst hak
      rw [List.foldl_cons,
        foldl_getK_frame step hframe t (step st (ak, av)) ak hnd.1,
        hval st (ak, av)]
      simp [getK]
    · rw [List.foldl_cons, ih (step st (ak, av)) hnd.2,
        hframe st (ak, av) k (Ne.symm hak)]
      simp [getK, hak]

theorem foldl_getK_keys_frame (step : State → String → State)
    (hframe : ∀ st a k, k ≠ a → getK (step st a) k = getK st k)
    (L : List String) (st : State) (k : String) (hk : k ∉ L) :
    getK (L.foldl step st) k = getK st k := by
  induction L generalizing st with
  | nil => rfl
  | cons a t ih =>
    simp only [List.mem_cons] at hk
    push_neg at hk
    rw [List.foldl_cons, ih (step st a) hk.2, hframe st a k hk.1]

theorem foldl_getK_keys_char (step : State → String → State)
    (G : String → Option PresenceRecord → Option PresenceRecord)
    (hframe : ∀ st a k, k ≠ a → getK (step st a) k = getK st k)
    (hval : ∀ st a, getK (step st a) a = G a (getK st a))
    (L : List String) (st : State) (k : String)
    (hnd : L.Nodup) (hk : k ∈ L) :
    getK (L.foldl step st) k = G k (getK st k) := by
  induction L generalizing st with
  | nil => simp at hk
  | cons a t ih =>
    simp only [List.nodup_cons] at hnd
    by_cases hak : a = k
    · subst hak
      rw [List.foldl_cons, foldl_getK_keys_frame step hframe t (step st a) a hnd.1,
        hval st a]
    · rcases List.mem_cons.mp hk with h | h
      · exact absurd h.symm hak
      · rw [List.foldl_cons, ih (step st a) hnd.2 h, hframe st a k (Ne.symm hak)]

theorem joinStep_frame (st : State) (kv : String × PresenceRecord) (k : String)
    (h : k ≠ kv.1) : getK (joinStep st kv) k = getK st k := by
  unfold joinStep
  cases getK st kv.1 <;> simp [getK_setK_other st kv.1 k _ h]

theorem joinStep_val (st : State) (kv : String × PresenceRecord) :
    getK (joinStep st kv) kv.1 = some (joinRecord (getK st kv.1) kv.2) := by
  unfold joinStep joinRecord
  cases getK st kv.1 <;> simp [getK_setK_self]

theorem leaveStep_frame (st : State) (kv : String × PresenceRecord) (k : String)
    (h : k ≠ kv.1) : getK (leaveStep st kv) k = getK st k := by
  unfold leaveStep
  cases getK st kv.1 with
  | none => rfl
  | some c =>
    simp only []
    split
    · exact getK_delK_other st kv.1 k h
    · exact getK_setK_other st kv.1 k _ h

theorem leaveStep_val (st : State) (kv : String × PresenceRecord) :
    getK (leaveStep st kv) kv.1 = leaveBinding (getK st kv.1) kv.2 := by
  unfold leaveStep leaveBinding leaveRecord
  cases hcur : getK st kv.1 with
  | none => simp [hcur]
  | some c =>
    simp only []
    split
    · simp [getK_delK_self, *]
    · simp [getK_setK_self, *]

theorem notifyStep_frame (S : State)
    (cb : String → Option PresenceRecord → Option PresenceRecord → Option PresenceRecord)
    (st : State) (a k : String) (h : k ≠ a) :
    getK (notifyStep S cb st a) k = getK st k := by
  unfold notifyStep
  cases hcb : cb a (getK st a) (getK S a) with
  | none => simp [hcb]
  | some np =>
    cases hcur : getK st a with
    | none => simp [hcb, hcur]
    | some cp =>
      simp only [hcb, hcur]
      split
      · exact getK_setK_other st a k np h
      · rfl

theorem notifyStep_val (S : State)
    (cb : String → Option PresenceRecord → Option PresenceRecord → Option PresenceRecord)
    (st : State) (a : String) :
    getK (notifyStep S cb st a) a = notifyBinding S cb a (getK st a) := by
  unfold notifyStep notifyBinding
  cases hcb : cb a (getK st a) (getK S a) with
  | none => simp [hcb]
  | some np =>
    cases hcur : getK st a with
    | none => simp [hcb, hcur]
    | some cp =>
      simp only [hcb, hcur]
      split
      · simp [getK_setK_self]
      · simp [hcur]

/-!
## Instrumentation adequacy: the traced folds compute the same states
-/

theorem joinStepT_fst (acc : State × List PEvent) (kv : String × PresenceRecord) :
    (joinStepT acc kv).1 = joinStep acc.1 kv := by
  unfold joinStepT joinStep
  cases hcur : getK acc.1 kv.1 <;> simp [hcur]

theorem leaveStepT_fst (acc : State × List PEvent) (kv : String × PresenceRecord) :
    (leaveStepT acc kv).1 = leaveStep acc.1 kv := by
  unfold leaveStepT leaveStep
  cases hcur : getK acc.1 kv.1 <;> simp [hcur]

theorem foldl_joinStepT_fst (L : List (String × PresenceRecord)) :
    ∀ (st : State) (tr : List PEvent),
    (L.foldl joinStepT (st, tr)).1 = L.foldl joinStep st := by
  induction L with
  | nil => intro st tr; rfl
  | cons a t ih =>
    intro st tr
    rw [List.foldl_cons, List.foldl_cons]
    have h := ih (joinStepT (st, tr) a).1 (joinStepT (st, tr) a).2
    rw [Prod.mk.eta] at h
    rw [h, joinStepT_fst]

theorem foldl_leaveStepT_fst (L : List (String × PresenceRecord)) :
    ∀ (st : State) (tr : List PEvent),
    (L.foldl leaveStepT (st, tr)).1 = L.foldl leaveStep st := by
  induction L with
  | nil => intro st tr; rfl
  | cons a t ih =>
    intro st tr
    rw [List.foldl_cons, List.foldl_cons]
    have h := ih (leaveStepT (st, tr) a).1 (leaveStepT (st, tr) a).2
    rw [Prod.mk.eta] at h
    rw [h, leaveStepT_fst]

/-- The state component of the per-event variant equals `syncDiff`. -/
theorem syncDiffJL_fst (state : State) (d : Delta) :
    (syncDiffJL state d).1 = syncDiff state d := by
  unfold syncDiffJL syncDiff
  have h := foldl_leaveStepT_fst d.leaves
      (d.joins.foldl joinStepT (state, [])).1 (d.joins.foldl joinStepT (state, [])).2
  rw [Prod.mk.eta] at h
  rw [h, foldl_joinStepT_fst]

theorem foldl_notifyStepT_fst (S : State)
    (cb : String → Option PresenceRecord → Option PresenceRecord → Option PresenceRecord)
    (L : List String) :
    ∀ (st : State) (tr : List (String × Option PresenceRecord × Option PresenceRecord)),
    (L.foldl (notifyStepT S cb) (st, tr)).1 = L.foldl (notifyStep S cb) st := by
  induction L with
  | nil => intro st tr; rfl
  | cons a t ih =>
    intro st tr
    rw [List.foldl_cons, List.foldl_cons]
    have h := ih (notifyStepT S cb (st, tr) a).1 (notifyStepT S cb (st, tr) a).2
    rw [Prod.mk.eta] at h
    exact h

/-!
## Trace lemmas

For duplicate-free key sequences (which Immutable maps and sets always
deliver), each traced fold's event list is characterised against the state
the fold started from.
-/

theorem joins_trace (S : State) (L : List (String × PresenceRecord)) :
    ∀ (st : State) (tr : List PEvent),
    (L.map Prod.fst).Nodup →
    (∀ k, k ∈ L.map Prod.fst → getK st k = getK S k) →
    (L.foldl joinStepT (st, tr)).2 =
      tr ++ L.map (fun kv =>
        PEvent.join kv.1 (getK S kv.1) (joinRecord (getK S kv.1) kv.2)) := by
  induction L with
  | nil => intro st tr _ _; simp
  | cons a t ih =>
    intro st tr hnd hagree
    simp only [List.map_cons, List.nodup_cons] at hnd
    have ha : getK st a.1 = getK S a.1 := hagree a.1 (by simp)
    have hstep : joinStepT (st, tr) a =
        (setK st a.1 (joinRecord (getK S a.1) a.2),
         tr ++ [PEvent.join a.1 (getK S a.1) (joinRecord (getK S a.1) a.2)]) := by
      unfold joinStepT joinRecord
      rw [ha]
    rw [List.foldl_cons, hstep,
      ih _ _ hnd.2 (fun k hk => by
        rw [getK_setK_other st a.1 k _ (fun he => hnd.1 (he ▸ hk))]
        exact hagree k (by simp [hk]))]
    simp

theorem leaves_trace (A : State) (L : List (String × PresenceRecord)) :
    ∀ (st : State) (tr : List PEvent),
    (L.map Prod.fst).Nodup →
    (∀ k, k ∈ L.map Prod.fst → getK st k = getK A k) →
    (L.foldl leaveStepT (st, tr)).2 =
      tr ++ L.filterMap (fun kv =>
        (getK A kv.1).map (fun c => PEvent.leave kv.1 (leaveRecord c kv.2) kv.2)) := by
  induction L with
  | nil => intro st tr _ _; simp
  | cons a t ih =>
    intro st tr hnd hagree
    simp only [List.map_cons, List.nodup_cons] at hnd
    have ha : getK st a.1 = getK A a.1 := hagree a.1 (by simp)
    cases hc : getK A a.1 with
    | none =>
      have hstep : leaveStepT (st, tr) a = (st, tr) := by
        unfold leaveStepT
        rw [ha, hc]
      rw [List.foldl_cons, hstep,
        ih _ _ hnd.2 (fun k hk => hagree k (by simp [hk]))]
      simp [hc]
    | some c =>
      have hstep : leaveStepT (st, tr) a =
          ((if (leaveRecord c a.2).metas.isEmpty then delK st a.1
            else setK st a.1 (leaveRecord c a.2)),
           tr ++ [PEvent.leave a.1 (leaveRecord c a.2) a.2]) := by
        unfold leaveStepT leaveRecord
        rw [ha, hc]
      have hframe : ∀ k, k ∈ t.map Prod.fst →
          getK (leaveStepT (st, tr) a).1 k = getK A k := by
        intro k hk
        have hne : k ≠ a.1 := fun he => hnd.1 (he ▸ hk)
        rw [hstep]
        simp only []
        split
        · rw [getK_delK_other st a.1 k hne]
          exact hagree k (by simp [hk])
        · rw [getK_setK_other st a.1 k _ hne]
          exact hagree k (by simp [hk])
      rw [List.foldl_cons]
      have h2 := ih (leaveStepT (st, tr) a).1 (leaveStepT (st, tr) a).2 hnd.2 hframe
      rw [Prod.mk.eta] at h2
      rw [h2, hstep]
      simp [hc]

theorem notify_trace (S A : State)
    (cb : String → Option PresenceRecord → Option PresenceRecord → Option PresenceRecord)
    (L : List String) :
    ∀ (st : State) (tr : List (String × Option PresenceRecord × Option PresenceRecord)),
    L.Nodup →
    (∀ k, k ∈ L → getK st k = getK A k) →
    (L.foldl (notifyStepT S cb) (st, tr)).2 =
      tr ++ L.map (fun k => (k, getK A k, getK S k)) := by
  induction L with
  | nil => intro st tr _ _; simp
  | cons a t ih =>
    intro st tr hnd hagree
    simp only [List.nodup_cons] at hnd
    have ha : getK st a = getK A a := hagree a (by simp)
    have hstep : notifyStepT S cb (st, tr) a =
        (notifyStep S cb st a, tr ++ [(a, getK A a, getK S a)]) := by
      unfold notifyStepT
      rw [ha]
    rw [List.foldl_cons, hstep,
      ih _ _ hnd.2 (fun k hk => by
        rw [notifyStep_frame S cb st a k (fun he => hnd.1 (he ▸ hk))]
        exact hagree k (by simp [hk]))]
    simp

theorem filter_not_contains_eq (ms : List Meta) (refs : List String) :
    ms.filter (fun m => !(refs.contains m.phx_ref)) =
      ms.filter (fun m => decide (m.phx_ref ∉ refs)) := by
  refine List.filter_congr (fun m _ => ?_)
  simp

/-- C1: for every state and delta whose join and leave maps have
duplicate-free keys (as `Immutable.Map`s always do), `syncDiff` computes,
at every key, exactly the reference definition's record: joins merge by
concatenation (existing metas first) or insert verbatim, then leaves
filter out the listed refs over the join-phase result, deleting the key
when no metas remain. -/
theorem syncDiff_matches_reference (S : State) (d : Delta) (k : String)
    (hj : (d.joins.map Prod.fst).Nodup) (hl : (d.leaves.map Prod.fst).Nodup) :
    getK (syncDiff S d) k = referenceAt S d k := by
  unfold syncDiff
  rw [foldl_getK_char leaveStep (fun kv cur => leaveBinding cur kv.2)
        leaveStep_frame leaveStep_val d.leaves _ k hl,
      foldl_getK_char joinStep (fun kv cur => some (joinRecord cur kv.2))
        joinStep_frame joinStep_val d.joins S k hj]
  unfold referenceAt referenceJoinAt joinRecord
  cases hlv : getK d.leaves k with
  | none =>
    cases hjv : getK d.joins k with
    | none => simp
    | some j => cases hcur : getK S k <;> simp
  | some l =>
    cases hjv : getK d.joins k with
    | none =>
      cases hcur : getK S k with
      | none => simp [leaveBinding]
      | some c =>
        simp only [leaveBinding, leaveRecord]
        rw [filter_not_contains_eq c.metas (l.metas.map (fun x => x.phx_ref))]
        simp [List.isEmpty_iff]
    | some j =>
      cases hcur : getK S k with
      | none =>
        simp only [leaveBinding, leaveRecord]
        rw [filter_not_contains_eq j.metas (l.metas.map (fun x => x.phx_ref))]
        simp [List.isEmpty_iff]
      | some c =>
        simp only [leaveBinding, leaveRecord]
        rw [filter_not_contains_eq (c.metas ++ j.metas) (l.metas.map (fun x => x.phx_ref))]
        simp [List.isEmpty_iff]

/-- Witness for C1 at a concrete input (a collision join plus a partial
leave, mirroring the repo's test fixtures). -/
theorem syncDiff_matches_reference_witness :
    getK
      (syncDiff
        [("u1", ⟨[⟨"1", [("id", "1")], 0⟩], [], 10⟩),
         ("u2", ⟨[⟨"2", [("id", "2")], 1⟩, ⟨"2.b", [("id", "2")], 2⟩], [], 11⟩)]
        ⟨[("u1", ⟨[⟨"1.2", [("id", "1")], 3⟩], [], 12⟩)],
         [("u2", ⟨[⟨"2", [], 4⟩], [], 13⟩)]⟩)
      "u2" =
    referenceAt
      [("u1", ⟨[⟨"1", [("id", "1")], 0⟩], [], 10⟩),
       ("u2", ⟨[⟨"2", [("id", "2")], 1⟩, ⟨"2.b", [("id", "2")], 2⟩], [], 11⟩)]
      ⟨[("u1", ⟨[⟨"1.2", [("id", "1")], 3⟩], [], 12⟩)],
       [("u2", ⟨[⟨"2", [], 4⟩], [], 13⟩)]⟩
      "u2" :=
  syncDiff_matches_reference _ _ "u2" (by decide) (by decide)

/-!
## C2 — structural sharing for untouched keys and carried-through metas
-/

/-- During the leave phase, the binding of a key never gains metas: it is
always the initial record with a sub-sequence of its metas (same `extra`
fields and same identity tag), or absent. -/
theorem leaves_fold_shape (L : List (String × PresenceRecord)) (k : String)
    (r : PresenceRecord) :
    ∀ st : State,
    (∀ r₀, getK st k = some r₀ → ∃ ms, r₀ = { r with metas := ms } ∧ ms.Sublist r.metas) →
    ∀ r', getK (L.foldl leaveStep st) k = some r' →
      ∃ ms, r' = { r with metas := ms } ∧ ms.Sublist r.metas := by
  induction L with
  | nil => intro st hst r' h; exact hst r' h
  | cons a t ih =>
    intro st hst r' h
    refine ih (leaveStep st a) ?_ r' h
    intro r₀ h₀
    by_cases hak : k = a.1
    · rw [hak, leaveStep_val st a] at h₀
      unfold leaveBinding at h₀
      cases hcur : getK st a.1 with
      | none => rw [hcur] at h₀; exact absurd h₀ (by simp)
      | some c =>
        rw [hcur] at h₀
        obtain ⟨ms, hc, hsub⟩ := hst c (hak ▸ hcur)
        subst hc
        by_cases hempty : (leaveRecord ⟨ms, r.extra, r.tag⟩ a.2).metas.isEmpty
        · simp [hempty] at h₀
        · simp [hempty] at h₀
          refine ⟨(leaveRecord ⟨ms, r.extra, r.tag⟩ a.2).metas, by rw [← h₀]; rfl, ?_⟩
          show (List.filter _ ms).Sublist r.metas
          exact (List.filter_sublist _).trans hsub
    · rw [leaveStep_frame st a k hak] at h₀
      exact hst r₀ h₀

/-- C2: (i) a key touched by neither `joins` nor `leaves` has exactly the
same binding (record value, identity tag included) after `syncDiff`; and
(ii) for a key untouched by `joins`, the record surviving the leave phase
is the original record with a sub-sequence of its metas: every retained
meta is carried through as the very same object. -/
theorem untouched_keys_keep_identity :
    (∀ (S : State) (d : Delta) (k : String),
        k ∉ d.joins.map Prod.fst → k ∉ d.leaves.map Prod.fst →
        getK (syncDiff S d) k = getK S k)
    ∧ (∀ (S : State) (d : Delta) (k : String) (r r' : PresenceRecord),
        k ∉ d.joins.map Prod.fst →
        getK S k = some r → getK (syncDiff S d) k = some r' →
        r' = { r with metas := r'.metas } ∧ r'.metas.Sublist r.metas) := by
  constructor
  · intro S d k hj hl
    unfold syncDiff
    rw [foldl_getK_frame leaveStep leaveStep_frame d.leaves _ k hl,
      foldl_getK_frame joinStep joinStep_frame d.joins S k hj]
  · intro S d k r r' hj hS hres
    have hA : getK (d.joins.foldl joinStep S) k = some r := by
      rw [foldl_getK_frame joinStep joinStep_frame d.joins S k hj]
      exact hS
    have h := leaves_fold_shape d.leaves k r (d.joins.foldl joinStep S)
      (fun r₀ h₀ => ⟨r.metas, by rw [hA] at h₀; simp at h₀; simp [← h₀], List.Sublist.refl _⟩)
      r' hres
    obtain ⟨ms, hr, hsub⟩ := h
    subst hr
    exact ⟨rfl, hsub⟩

/-- Witness for C2 at a concrete input: key `u3` is touched by neither
part of the delta and keeps its binding, tag included. -/
theorem untouched_keys_keep_identity_witness :
    getK
      (syncDiff
        [("u1", ⟨[⟨"1", [], 1⟩], [], 21⟩), ("u3", ⟨[⟨"3", [], 3⟩], [], 23⟩)]
        ⟨[("u1", ⟨[⟨"1.2", [], 4⟩], [], 24⟩)], [("u2", ⟨[⟨"2", [], 2⟩], [], 22⟩)]⟩)
      "u3" =
    getK [("u1", ⟨[⟨"1", [], 1⟩], [], 21⟩), ("u3", ⟨[⟨"3", [], 3⟩], [], 23⟩)] "u3" :=
  untouched_keys_keep_identity.1
    [("u1", ⟨[⟨"1", [], 1⟩], [], 21⟩), ("u3", ⟨[⟨"3", [], 3⟩], [], 23⟩)]
    ⟨[("u1", ⟨[⟨"1.2", [], 4⟩], [], 24⟩)], [("u2", ⟨[⟨"2", [], 2⟩], [], 22⟩)]⟩
    "u3" (by decide) (by decide)

/-!
## C6 — the empty delta returns the very same state
-/

/-- C6: with `joins` and `leaves` both empty, every variant of `syncDiff`
returns its input state unchanged — each reduce runs over an empty
collection and hands back its accumulator, which is the original state
reference — whether or not a callback is supplied (the `onChanged` pass
then iterates over an empty changed-key set, and the per-event variant
fires no events). -/
theorem syncDiff_empty_delta_identity (S : State)
    (cb : Option (String → Option PresenceRecord → Option PresenceRecord → Option PresenceRecord)) :
    syncDiffN S ⟨[], []⟩ cb = S ∧
    (syncDiffJL S ⟨[], []⟩).1 = S ∧ (syncDiffJL S ⟨[], []⟩).2 = [] := by
  refine ⟨?_, rfl, rfl⟩
  cases cb <;> rfl

/-!
## C3 — the `onChanged` notification contract
-/

/-- C3: with an `onChanged` callback supplied, (i) the callback trace is
exactly one call per key of `joins ∪ leaves` (the deduplicated union), in
that set's order, with arguments (key, post-apply record, original
record); (ii) the traced run computes the very state `syncDiff` with the
callback returns; (iii) at each changed key the final binding adopts the
callback's return value precisely when a post-apply record exists and the
returned record's metas are value-equal to it, and otherwise keeps the
applier's record; (iv) keys outside the union are untouched by the pass. -/
theorem onChanged_contract (S : State) (d : Delta)
    (cb : String → Option PresenceRecord → Option PresenceRecord → Option PresenceRecord) :
    (syncDiffTraced S d cb).2 =
        (changedKeys d).map (fun k => (k, getK (syncDiff S d) k, getK S k))
    ∧ (changedKeys d).Nodup
    ∧ (∀ k, k ∈ changedKeys d ↔ k ∈ d.joins.map Prod.fst ∨ k ∈ d.leaves.map Prod.fst)
    ∧ (syncDiffTraced S d cb).1 = syncDiffN S d (some cb)
    ∧ (∀ k, k ∈ changedKeys d →
        getK (syncDiffN S d (some cb)) k =
          notifyBinding S cb k (getK (syncDiff S d) k))
    ∧ (∀ k, k ∉ changedKeys d →
        getK (syncDiffN S d (some cb)) k = getK (syncDiff S d) k) := by
  refine ⟨?_, List.nodup_dedup _, ?_, ?_, ?_, ?_⟩
  · have h := notify_trace S (syncDiff S d) cb (changedKeys d) (syncDiff S d) []
      (List.nodup_dedup _) (fun k _ => rfl)
    simpa [syncDiffTraced] using h
  · intro k
    simp [changedKeys, List.mem_dedup]
  · unfold syncDiffTraced syncDiffN
    exact foldl_notifyStepT_fst S cb (changedKeys d) (syncDiff S d) []
  · intro k hk
    unfold syncDiffN
    exact foldl_getK_keys_char (notifyStep S cb) (notifyBinding S cb)
      (notifyStep_frame S cb) (notifyStep_val S cb)
      (changedKeys d) (syncDiff S d) k (List.nodup_dedup _) hk
  · intro k hk
    unfold syncDiffN
    exact foldl_getK_keys_frame (notifyStep S cb)
      (notifyStep_frame S cb) (changedKeys d) (syncDiff S d) k hk

/-- Witness for C3 at a concrete input whose key occurs in both `joins`
and `leaves`: the callback fires once for it. -/
theorem onChanged_contract_witness :
    "u1" ∈ changedKeys ⟨[("u1", ⟨[⟨"1.2", [], 2⟩], [], 32⟩)],
                        [("u1", ⟨[⟨"1", [], 1⟩], [], 31⟩)]⟩ ∧
    getK
      (syncDiffN [("u1", ⟨[⟨"1", [], 1⟩], [], 30⟩)]
        ⟨[("u1", ⟨[⟨"1.2", [], 2⟩], [], 32⟩)], [("u1", ⟨[⟨"1", [], 1⟩], [], 31⟩)]⟩
        (some (fun _ cur _ => cur)))
      "u1" =
    notifyBinding [("u1", ⟨[⟨"1", [], 1⟩], [], 30⟩)] (fun _ cur _ => cur) "u1"
      (getK
        (syncDiff [("u1", ⟨[⟨"1", [], 1⟩], [], 30⟩)]
          ⟨[("u1", ⟨[⟨"1.2", [], 2⟩], [], 32⟩)], [("u1", ⟨[⟨"1", [], 1⟩], [], 31⟩)]⟩)
        "u1") :=
  ⟨by decide,
   (onChanged_contract [("u1", ⟨[⟨"1", [], 1⟩], [], 30⟩)]
      ⟨[("u1", ⟨[⟨"1.2", [], 2⟩], [], 32⟩)], [("u1", ⟨[⟨"1", [], 1⟩], [], 31⟩)]⟩
      (fun _ cur _ => cur)).2.2.2.2.1 "u1" (by decide)⟩

/-- Counterexample to C5 as stated: on the empty state, a delta whose
`leaves` contains key `u1` produces no callback invocation at all, though
the claim requires `onLeave` to fire exactly once for every key of
`leaves`. -/
theorem perEvent_onLeave_skips_absent_keys :
    c5Delta.leaves.map Prod.fst = ["u1"] ∧ (syncDiffJL [] c5Delta).2 = [] := by
  constructor
  · rfl
  · rfl

/-- C5 (amended): with duplicate-free join and leave keys, the per-event
variant fires callbacks inline, all join events before all leave events;
`onJoin` fires exactly once per key of `joins` with the record before the
join (`undefined` when absent) and the merged record after it; `onLeave`
fires exactly once per key of `leaves` that is *present in the post-join
state* — including keys whose entry the leave deletes, where the second
argument is the record with the empty filtered metas sequence — and not
at all for keys absent from the post-join state. -/
theorem perEvent_callback_trace (S : State) (d : Delta)
    (hj : (d.joins.map Prod.fst).Nodup) (hl : (d.leaves.map Prod.fst).Nodup) :
    (syncDiffJL S d).2 =
      d.joins.map (fun kv =>
        PEvent.join kv.1 (getK S kv.1) (joinRecord (getK S kv.1) kv.2))
      ++ d.leaves.filterMap (fun kv =>
        (getK (d.joins.foldl joinStep S) kv.1).map
          (fun c => PEvent.leave kv.1 (leaveRecord c kv.2) kv.2)) := by
  unfold syncDiffJL
  have hjt := joins_trace S d.joins S [] hj (fun k _ => rfl)
  have hfst := foldl_joinStepT_fst d.joins S []
  have hlt := leaves_trace (d.joins.foldl joinStep S) d.leaves
    (d.joins.foldl joinStepT (S, [])).1 (d.joins.foldl joinStepT (S, [])).2 hl
    (fun k _ => by rw [hfst])
  rw [Prod.mk.eta] at hlt
  rw [hlt, hjt]
  simp

/-- Witness for C5 (amended) at a concrete input covering a fresh join, a
partial leave, and a full leave (deleted key). -/
theorem perEvent_callback_trace_witness :
    (syncDiffJL
      [("u1", ⟨[⟨"1", [], 1⟩, ⟨"1.b", [], 2⟩], [], 41⟩), ("u2", ⟨[⟨"2", [], 3⟩], [], 42⟩)]
      ⟨[("u3", ⟨[⟨"3", [], 4⟩], [], 43⟩)],
       [("u1", ⟨[⟨"1", [], 5⟩], [], 44⟩), ("u2", ⟨[⟨"2", [], 6⟩], [], 45⟩)]⟩).2 =
      [PEvent.join "u3" none ⟨[⟨"3", [], 4⟩], [], 43⟩,
       PEvent.leave "u1" ⟨[⟨"1.b", [], 2⟩], [], 41⟩ ⟨[⟨"1", [], 5⟩], [], 44⟩,
       PEvent.leave "u2" ⟨[], [], 42⟩ ⟨[⟨"2", [], 6⟩], [], 45⟩] := by
  have h := perEvent_callback_trace
    [("u1", ⟨[⟨"1", [], 1⟩, ⟨"1.b", [], 2⟩], [], 41⟩), ("u2", ⟨[⟨"2", [], 3⟩], [], 42⟩)]
    ⟨[("u3", ⟨[⟨"3", [], 4⟩], [], 43⟩)],
     [("u1", ⟨[⟨"1", [], 5⟩], [], 44⟩), ("u2", ⟨[⟨"2", [], 6⟩], [], 45⟩)]⟩
    (by decide) (by decide)
  rw [h]
  rfl

/-- Counterexample to C8 as stated: one `syncDiff` from the empty state,
with a join record carrying zero metas, yields a state entry with an
empty metas sequence. -/
theorem emptyMetas_record_reachable :
    ¬ StateWF (syncDiff [] ⟨[("u1", ⟨[], [], 0⟩)], []⟩) := by
  decide

theorem getK_mem (s : State) (k : String) (v : PresenceRecord)
    (h : getK s k = some v) : (k, v) ∈ s := by
  induction s with
  | nil => simp [getK] at h
  | cons hd t ih =>
    obtain ⟨k', v'⟩ := hd
    by_cases hk : k' = k
    · subst hk
      simp [getK] at h
      simp [h]
    · simp [getK, hk] at h
      exact List.mem_cons_of_mem _ (ih h)

theorem metasIs_length (xs ys : List Meta) (h : metasIs xs ys = true) :
    xs.length = ys.length := by
  unfold metasIs at h
  simp at h
  exact h.1

theorem joins_fold_WF (L : List (String × PresenceRecord)) :
    ∀ st : State, StateWF st → (∀ p ∈ L, p.2.metas ≠ []) →
    StateWF (L.foldl joinStep st) := by
  induction L with
  | nil => intro st hst _; exact hst
  | cons a t ih =>
    intro st hst hL
    refine ih (joinStep st a) ?_ (fun p hp => hL p (List.mem_cons_of_mem _ hp))
    intro p hp
    unfold joinStep at hp
    cases hcur : getK st a.1 with
    | none =>
      rw [hcur] at hp
      rcases mem_setK st a.1 a.2 p hp with h | h
      · rw [h]; exact hL a (by simp)
      · exact hst p h
    | some c =>
      rw [hcur] at hp
      rcases mem_setK st a.1 _ p hp with h | h
      · rw [h]
        simp only [ne_eq, List.append_eq_nil]
        intro hc
        exact hL a (by simp) hc.2
      · exact hst p h

theorem leaves_fold_WF (L : List (String × PresenceRecord)) :
    ∀ st : State, StateWF st → StateWF (L.foldl leaveStep st) := by
  induction L with
  | nil => intro st hst; exact hst
  | cons a t ih =>
    intro st hst
    refine ih (leaveStep st a) ?_
    intro p hp
    unfold leaveStep at hp
    cases hcur : getK st a.1 with
    | none =>
      rw [hcur] at hp
      exact hst p hp
    | some c =>
      rw [hcur] at hp
      simp only [] at hp
      by_cases hempty :
          (c.metas.filter
            (fun m => !((a.2.metas.map (fun x => x.phx_ref)).contains m.phx_ref))).isEmpty
      · rw [if_pos hempty] at hp
        exact hst p (mem_delK st a.1 p hp)
      · rw [if_neg hempty] at hp
        rcases mem_setK st a.1 _ p hp with h | h
        · rw [h]
          simpa [List.isEmpty_iff] using hempty
        · exact hst p h

theorem notify_fold_WF (S : State)
    (cb : String → Option PresenceRecord → Option PresenceRecord → Option PresenceRecord)
    (L : List String) :
    ∀ st : State, StateWF st → StateWF (L.foldl (notifyStep S cb) st) := by
  induction L with
  | nil => intro st hst; exact hst
  | cons a t ih =>
    intro st hst
    refine ih (notifyStep S cb st a) ?_
    intro p hp
    unfold notifyStep at hp
    cases hcb : cb a (getK st a) (getK S a) with
    | none =>
      rw [hcb] at hp
      cases getK st a <;> exact hst p hp
    | some np =>
      rw [hcb] at hp
      cases hcur : getK st a with
      | none => rw [hcur] at hp; exact hst p hp
      | some cp =>
        rw [hcur] at hp
        simp only [] at hp
        by_cases hm : metasIs np.metas cp.metas
        · rw [if_pos hm] at hp
          rcases mem_setK st a np p hp with h | h
          · rw [h]
            have hlen := metasIs_length np.metas cp.metas hm
            have hcp : cp.metas ≠ [] := hst (a, cp) (getK_mem st a cp hcur)
            intro hnil
            rw [hnil] at hlen
            exact hcp (List.eq_nil_of_length_eq_zero hlen.symm)
          · exact hst p h
        · rw [if_neg hm] at hp
          exact hst p hp

/-- C8 (amended): `syncDiff` — with or without an `onChanged` callback —
preserves the no-empty-metas invariant provided every record of the join
delta carries at least one meta.  Without that proviso the invariant
fails (see the counterexample): a zero-meta join record on a vacant key
is inserted verbatim. -/
theorem syncDiff_preserves_WF (S : State) (d : Delta)
    (cb : Option (String → Option PresenceRecord → Option PresenceRecord → Option PresenceRecord))
    (hS : StateWF S) (hjoins : ∀ p ∈ d.joins, p.2.metas ≠ []) :
    StateWF (syncDiffN S d cb) := by
  have hcore : StateWF (syncDiff S d) :=
    leaves_fold_WF d.leaves _ (joins_fold_WF d.joins S hS hjoins)
  cases cb with
  | none => exact hcore
  | some f => exact notify_fold_WF S f (changedKeys d) _ hcore

/-- Witness for C8 (amended) at a concrete input. -/
theorem syncDiff_preserves_WF_witness :
    StateWF
      (syncDiffN [("u2", ⟨[⟨"2", [], 1⟩], [], 51⟩)]
        ⟨[("u1", ⟨[⟨"1", [], 2⟩], [], 52⟩)], [("u2", ⟨[⟨"2", [], 3⟩], [], 53⟩)]⟩
        none) :=
  syncDiff_preserves_WF [("u2", ⟨[⟨"2", [], 1⟩], [], 51⟩)]
    ⟨[("u1", ⟨[⟨"1", [], 2⟩], [], 52⟩)], [("u2", ⟨[⟨"2", [], 3⟩], [], 53⟩)]⟩
    none (by decide) (by decide)

/-- Counterexample to C9 as stated: key `u1` survives the join collision
but the resulting record no longer carries the extra field `("x", "1")`
that the original state record held. -/
theorem join_collision_drops_extras :
    (getK c9State "u1").map (fun r => r.extra) = some [("x", "1")] ∧
    (getK (syncDiff c9State c9Delta) "u1").map (fun r => r.extra) = some [] := by
  constructor
  · rfl
  · rfl

/-- C9 (amended): for a key untouched by `joins`, leave processing
preserves the record's extra top-level fields (and its identity tag)
whenever the key survives; in a join collision the resulting record
instead carries the join delta record's top-level fields. -/
theorem extras_preserved_by_leaves (S : State) (d : Delta) (k : String)
    (r r' : PresenceRecord) (hk : k ∉ d.joins.map Prod.fst)
    (hS : getK S k = some r) (hres : getK (syncDiff S d) k = some r') :
    r'.extra = r.extra ∧ r'.tag = r.tag := by
  have hA : getK (d.joins.foldl joinStep S) k = some r := by
    rw [foldl_getK_frame joinStep joinStep_frame d.joins S k hk]
    exact hS
  have h := leaves_fold_shape d.leaves k r (d.joins.foldl joinStep S)
    (fun r₀ h₀ => ⟨r.metas, by rw [hA] at h₀; simp at h₀; simp [← h₀], List.Sublist.refl _⟩)
    r' hres
  obtain ⟨ms, hr, _⟩ := h
  rw [hr]
  exact ⟨rfl, rfl⟩

/-- Witness for C9 (amended) at a concrete input: a partial leave keeps
the extra field. -/
theorem extras_preserved_by_leaves_witness :
    (⟨[⟨"2.b", [], 2⟩], [("y", "2")], 63⟩ : PresenceRecord).extra =
      (⟨[⟨"2", [], 1⟩, ⟨"2.b", [], 2⟩], [("y", "2")], 63⟩ : PresenceRecord).extra ∧
    (⟨[⟨"2.b", [], 2⟩], [("y", "2")], 63⟩ : PresenceRecord).tag =
      (⟨[⟨"2", [], 1⟩, ⟨"2.b", [], 2⟩], [("y", "2")], 63⟩ : PresenceRecord).tag :=
  extras_preserved_by_leaves
    [("u2", ⟨[⟨"2", [], 1⟩, ⟨"2.b", [], 2⟩], [("y", "2")], 63⟩)]
    ⟨[], [("u2", ⟨[⟨"2", [], 3⟩], [], 64⟩)]⟩ "u2"
    ⟨[⟨"2", [], 1⟩, ⟨"2.b", [], 2⟩], [("y", "2")], 63⟩
    ⟨[⟨"2.b", [], 2⟩], [("y", "2")], 63⟩
    (by decide) (by decide) (by decide)

/-!
## C4 — payload classification by the combined entry point

The claim's dichotomy ("diff iff both fields present and presence-format,
otherwise snapshot") does not survive degenerate payloads: a truthy
non-collection value under `joins`/`leaves` makes the format check itself
throw, so the call raises instead of routing anywhere.  On payloads where
the checks evaluate cleanly the classification is as claimed, and the
claim's concrete example is a snapshot producing exactly the literal keys
`joins` and `leaves`.
-/

/-- Counterexample to C4 as stated: this payload has both a `joins` and a
`leaves` field, yet `sync` raises (the format check calls `.every` on the
number `5`) rather than routing the payload to either path. -/
theorem sync_throws_on_truthy_primitive_joins :
    sync [] (.obj [("joins", .num 5), ("leaves", .obj [])]) = .error () := rfl

/-- C4 (amended): `sync` takes the diff path iff the payload has truthy
`joins` and `leaves` properties whose format checks both return `true`
without throwing; a missing property, a falsy value, or a failed check
routes the payload to the snapshot path (an erroring check propagates
instead, see the counterexample); and the claim's concrete example — the
two presence keys literally named `joins` and `leaves` with
non-presence-format values — is routed to the snapshot path and yields
the state with exactly those two literal keys. -/
theorem sync_classification :
    (∀ (S : RawState) (P j l : JVal),
        jfield P "joins" = some j → jfield P "leaves" = some l →
        truthy j = true → truthy l = true →
        isPresenceFormat j = Except.ok true → isPresenceFormat l = Except.ok true →
        sync S P = syncDiffRaw S j l)
    ∧ (∀ (S : RawState) (P : JVal),
        jfield P "joins" = none ∨ jfield P "leaves" = none →
        sync S P = syncState S P)
    ∧ (∀ (S : RawState) (P j l : JVal),
        jfield P "joins" = some j → jfield P "leaves" = some l →
        (truthy j = false ∨ truthy l = false) →
        sync S P = syncState S P)
    ∧ (∀ (S : RawState) (P j l : JVal),
        jfield P "joins" = some j → jfield P "leaves" = some l →
        truthy j = true → truthy l = true →
        isPresenceFormat j = Except.ok false →
        sync S P = syncState S P)
    ∧ (∀ (S : RawState) (P j l : JVal),
        jfield P "joins" = some j → jfield P "leaves" = some l →
        truthy j = true → truthy l = true →
        isPresenceFormat j = Except.ok true → isPresenceFormat l = Except.ok false →
        sync S P = syncState S P)
    ∧ sync [] c4Snapshot =
        .ok [("leaves", .obj [("metas", .arr [.obj [("id", .num 1), ("ref", .str "1.leaves")]])]),
             ("joins", .obj [("metas", .arr [.obj [("id", .num 1), ("ref", .str "1.joins")]])])] := by
  refine ⟨?_, ?_, ?_, ?_, ?_, rfl⟩
  · intro S P j l hj hl htj htl hfj hfl
    unfold sync
    rw [hj, hl]
    simp [htj, htl, hfj, hfl, Bind.bind, Except.bind]
  · intro S P h
    unfold sync
    rcases h with h | h
    · rw [h]
    · rw [h]
      cases jfield P "joins" <;> rfl
  · intro S P j l hj hl h
    unfold sync
    rw [hj, hl]
    rcases h with h | h <;> simp [h]
  · intro S P j l hj hl htj htl hfj
    unfold sync
    rw [hj, hl]
    simp [htj, htl, hfj, Bind.bind, Except.bind]
  · intro S P j l hj hl htj htl hfj hfl
    unfold sync
    rw [hj, hl]
    simp [htj, htl, hfj, hfl, Bind.bind, Except.bind]

/-- Witness for C4 (amended): the diff-routing conjunct at a concrete
presence-format payload. -/
theorem sync_classification_witness :
    sync [] (.obj [("joins", .obj [("u1", .obj [("metas", .arr [.obj [("phx_ref", .str "1")]])])]),
                   ("leaves", .obj [])]) =
      syncDiffRaw []
        (.obj [("u1", .obj [("metas", .arr [.obj [("phx_ref", .str "1")]])])])
        (.obj []) :=
  sync_classification.1 []
    (.obj [("joins", .obj [("u1", .obj [("metas", .arr [.obj [("phx_ref", .str "1")]])])]),
           ("leaves", .obj [])])
    (.obj [("u1", .obj [("metas", .arr [.obj [("phx_ref", .str "1")]])])])
    (.obj []) rfl rfl rfl rfl rfl rfl

/-!
## C10 — a snapshot whose keys are literally `joins`/`leaves` with
presence-format values is classified as a diff
-/

/-- C10: when the two presence keys are literally named `joins` and
`leaves` and their record values themselves pass the presence-format
check, `sync` applies the payload as a join/leave delta (the diff path),
not as a snapshot; concretely, such a payload on the empty state yields
the joined presences, not a two-key snapshot state. -/
theorem presence_format_joins_leaves_classified_as_diff :
    (∀ (S : RawState) (js ls : List (String × JVal)),
        isPresenceFormat (.obj js) = Except.ok true →
        isPresenceFormat (.obj ls) = Except.ok true →
        sync S (.obj [("joins", .obj js), ("leaves", .obj ls)]) =
          syncDiffRaw S (.obj js) (.obj ls))
    ∧ sync []
        (.obj [("joins", .obj [("u1", .obj [("metas", .arr [.obj [("phx_ref", .str "1.joins")]])])]),
               ("leaves", .obj [("u2", .obj [("metas", .arr [.obj [("phx_ref", .str "2.leaves")]])])])]) =
        .ok [("u1", .obj [("metas", .arr [.obj [("phx_ref", .str "1.joins")]])])] := by
  constructor
  · intro S js ls hfj hfl
    unfold sync
    simp [jfield, lookupJ, truthy, hfj, hfl, Bind.bind, Except.bind]
  · rfl

/-- Witness for C10 at a concrete payload. -/
theorem presence_format_joins_leaves_classified_as_diff_witness :
    sync [("u9", .obj [("metas", .arr [.obj [("phx_ref", .str "9")]])])]
      (.obj [("joins", .obj []), ("leaves", .obj [])]) =
      syncDiffRaw [("u9", .obj [("metas", .arr [.obj [("phx_ref", .str "9")]])])]
        (.obj []) (.obj []) :=
  presence_format_joins_leaves_classified_as_diff.1
    [("u9", .obj [("metas", .arr [.obj [("phx_ref", .str "9")]])])] [] [] rfl rfl

/-!
## C7 — malformed payloads and the (absent) canonicalization step

The code performs no up-front validation at all: `coerceImmutable` only
converts, and `extractMetas`/the reduces access `metas`/`phx_ref` lazily.
A join record with no metas joining a vacant key is inserted verbatim
with no error; an access to a missing metas sequence (here: a leave
record without metas aimed at a present key) throws a synchronous
`TypeError` mid-processing.  Since states are immutable values, a throw
still leaves the caller's state untouched.
-/

/-- Counterexample to C7 as stated: a malformed diff payload — the join
record for `u1` has no `metas` — raises nothing at all; the record is
inserted verbatim into the state. -/
theorem malformed_join_inserted_without_error :
    syncDiffRaw [] (.obj [("u1", .obj [])]) (.obj []) = .ok [("u1", .obj [])] := rfl

/-- C7 (amended): there is no validating canonicalization step.
(i) A join of any record — malformed or not — onto a vacant key performs
no validation and succeeds verbatim; (ii) a leave record missing `metas`
aimed at a present key makes the call throw synchronously during
processing (returning an error and no state, so no partially-applied
state is ever produced). -/
theorem no_upfront_validation :
    (∀ (S : RawState) (k : String) (v : JVal), getR S k = none →
        joinStepRaw S (k, v) = Except.ok (setR S k v))
    ∧ (∀ (S : RawState) (k : String) (cur : JVal), getR S k = some cur →
        syncDiffRaw S (.obj []) (.obj [(k, .obj [])]) = Except.error ()) := by
  constructor
  · intro S k v h
    unfold joinStepRaw
    rw [h]
  · intro S k cur h
    unfold syncDiffRaw
    simp only [List.foldlM, Bind.bind, Except.bind, Pure.pure, Except.pure]
    unfold leaveStepRaw
    simp only [h]
    rfl

/-- Witness for C7 (amended) at concrete inputs. -/
theorem no_upfront_validation_witness :
    joinStepRaw [] ("u1", .obj [("x", .num 7)]) =
      Except.ok (setR [] "u1" (.obj [("x", .num 7)])) ∧
    syncDiffRaw [("u2", .obj [("metas", .arr [.obj [("phx_ref", .str "2")]])])]
      (.obj []) (.obj [("u2", .obj [])]) = Except.error () :=
  ⟨no_upfront_validation.1 [] "u1" (.obj [("x", .num 7)]) rfl,
   no_upfront_validation.2 [("u2", .obj [("metas", .arr [.obj [("phx_ref", .str "2")]])])]
     "u2" (.obj [("metas", .arr [.obj [("phx_ref", .str "2")]])]) rfl⟩
